import Mathlib

/-!
# Verification of the `job_scheduler` core (src/lib.rs)

Shallow embedding of the cron-like job scheduler. Modelling conventions:

* A `chrono::DateTime<FixedOffset>` is modelled by its instant, an `Int`
  (comparison and subtraction of `DateTime` values in chrono act on the
  instant). A `FixedOffset` time zone is an `Int` (offset from UTC).
* A `chrono::Duration` is a signed `Int`; `core::time::Duration` (the
  unsigned std duration) is the nonnegative range of `Int`, and the fallible
  conversion `chrono::Duration::to_std` is `Duration.to_std : Int → Option Int`.
  The `.unwrap()` at the end of `time_till_next_job` is modelled by letting
  the function return `Option Int` (`none` = panic).
* The external `cron::Schedule` capability is opaque: it is a structure of
  its two consumed methods. `after` receives the time zone carried by its
  `DateTime` argument plus the instant, and returns the (lazily consumed,
  here finite) ascending sequence of occurrence instants; `upcoming`
  receives a time zone and the current instant (`Utc::now()` is an explicit
  argument throughout the embedding) and returns occurrences from now.
* The job's action `run: Box<dyn FnMut()>` is a side effect; `Job.tick`
  returns, next to the updated job, the list of occurrence instants at which
  the action was invoked, in invocation order, so "the action runs k times"
  is "the returned list has length k".
* `Uuid` is modelled as `Nat`.
-/

/-- The opaque `cron::Schedule` capability: `after(&datetime)` enumerates
occurrences after the given instant (the first argument is the fixed offset
carried by the `DateTime` argument), `upcoming(timezone)` enumerates
occurrences from the current instant (passed explicitly as second argument). -/
structure Schedule where
  after : Int → Int → List Int
  upcoming : Int → Int → List Int

/-- A schedulable `Job` (struct `Job` in src/lib.rs), minus the `run` closure,
whose invocations `Job.tick` returns explicitly. -/
structure Job where
  schedule : Schedule
  last_tick : Option Int
  limit_missed_runs : Nat
  job_id : Nat
  timezone : Int

/-- `Job::tick` (src/lib.rs lines 138-161). `now` is `Utc::now()` converted to
the job's time zone, passed explicitly. Returns the updated job and the list
of occurrences at which `(self.run)()` was invoked, in order.
`self.last_tick.replace(now)` stores `some now` and yields the old value;
on `None` the function returns before running anything. With a nonzero
`limit_missed_runs` the loop consumes `take limit` of `schedule.after`,
otherwise the whole sequence, stopping at the first event after `now`. -/
def Job.tick (j : Job) (now : Int) : Job × List Int :=
  match j.last_tick with
  | none => ({ j with last_tick := some now }, [])
  | some last_tick =>
    let events := j.schedule.after j.timezone last_tick
    let fired :=
      if j.limit_missed_runs > 0 then
        (events.take j.limit_missed_runs).takeWhile (fun event => event ≤ now)
      else
        events.takeWhile (fun event => event ≤ now)
    ({ j with last_tick := some now }, fired)

/-- `Job::last_tick` setter (src/lib.rs lines 185-187). -/
def Job.set_last_tick (j : Job) (last_tick : Option Int) : Job :=
  { j with last_tick := last_tick }

/-- `Job::limit_missed_runs` setter (src/lib.rs lines 172-174). -/
def Job.set_limit_missed_runs (j : Job) (limit : Nat) : Job :=
  { j with limit_missed_runs := limit }

/-- `struct JobScheduler` (src/lib.rs lines 191-194): a `Vec` of jobs and the
scheduler's time zone. -/
structure JobScheduler where
  jobs : List Job
  timezone : Int

/-- `JobScheduler::new` (src/lib.rs lines 200-205): empty collection, UTC. -/
def JobScheduler.new : JobScheduler :=
  { jobs := [], timezone := 0 }

/-- `JobScheduler::add` (src/lib.rs lines 216-223): overwrite the job's time
zone with the scheduler's current one, push it, return its id. -/
def JobScheduler.add (s : JobScheduler) (job : Job) : JobScheduler × Nat :=
  let job_id := job.job_id
  ({ s with jobs := s.jobs ++ [{ job with timezone := s.timezone }] }, job_id)

/-- `JobScheduler::remove` (src/lib.rs lines 235-249): linear scan for the
first index whose `job_id` matches, remove it if found, report whether a
match was found. -/
def JobScheduler.remove (s : JobScheduler) (job_id : Nat) : JobScheduler × Bool :=
  let found_index := s.jobs.findIdx? (fun job => job.job_id = job_id)
  match found_index with
  | some index => ({ s with jobs := s.jobs.eraseIdx index }, true)
  | none => (s, false)

/-- `JobScheduler::tick` (src/lib.rs lines 262-266): advance every stored job
in iteration order. Also returns, per job, the occurrences it fired. -/
def JobScheduler.tick (s : JobScheduler) (now : Int) : JobScheduler × List (List Int) :=
  let ticked := s.jobs.map (fun job => job.tick now)
  ({ s with jobs := ticked.map Prod.fst }, ticked.map Prod.snd)

/-- `chrono::Duration::to_std`: fails on a negative duration. -/
def Duration.to_std (d : Int) : Option Int :=
  if d < 0 then none else some d

/-- The accumulator step of `time_till_next_job`'s loop body
(src/lib.rs lines 290-293): `if duration.is_zero() || d < duration`. -/
def durationStep (duration d : Int) : Int :=
  if duration = 0 ∨ d < duration then d else duration

/-- `JobScheduler::time_till_next_job` (src/lib.rs lines 279-297). With no
jobs, the guess `Duration::from_millis(500)` (durations are one abstract
unit here). Otherwise fold over the jobs, taking one upcoming event per job,
starting from `Duration::zero()`; finally `duration.to_std().unwrap()`,
modelled by returning the `Option`. -/
def JobScheduler.time_till_next_job (s : JobScheduler) (now : Int) : Option Int :=
  if s.jobs.isEmpty then
    some 500
  else
    let timezone := s.timezone
    let duration := s.jobs.foldl
      (fun duration job =>
        ((job.schedule.upcoming timezone now).take 1).foldl
          (fun duration event => durationStep duration (event - now)) duration)
      0
    Duration.to_std duration

/-- `JobScheduler::set_timezone` (src/lib.rs lines 309-311). -/
def JobScheduler.set_timezone (s : JobScheduler) (timezone : Int) : JobScheduler :=
  { s with timezone := timezone }

/-- Trace of `last_tick` values observed after each of a sequence of advances
(used to state the monotonicity invariant of `last_tick`). -/
def Job.tickTrace (j : Job) : List Int → List (Option Int)
  | [] => []
  | t :: ts => ((j.tick t).fst).last_tick :: ((j.tick t).fst).tickTrace ts

/-- Per-job duration list scanned by `time_till_next_job`: for each stored job
(in order), the difference `event - now` for the single upcoming event the
inner `take(1)` loop sees, skipping jobs whose upcoming sequence is empty. -/
def JobScheduler.nextDurations (s : JobScheduler) (now : Int) : List Int :=
  s.jobs.filterMap
    (fun job => ((job.schedule.upcoming s.timezone now).head?).map (fun event => event - now))

/-- Concrete job for witness instances: given schedule, priming state, limit
and id; time zone 0. -/
def sampleJob (sched : Schedule) (lt : Option Int) (limit : Nat) (id : Nat) : Job :=
  { schedule := sched, last_tick := lt, limit_missed_runs := limit, job_id := id, timezone := 0 }

/-- Concrete schedule producing no occurrences at all. -/
def emptySchedule : Schedule := ⟨fun _ _ => [], fun _ _ => []⟩

/-- Concrete per-second schedule: ten occurrences one second apart after the
given instant; one upcoming occurrence one second after now. -/
def secondsSchedule : Schedule :=
  ⟨fun _ t => (List.range 10).map (fun k => t + 1 + (k : Int)),
   fun _ now => [now + 1]⟩

/-- Concrete schedule whose single upcoming occurrence is exactly at now. -/
def dueNowSchedule : Schedule := ⟨fun _ _ => [], fun _ now => [now]⟩

/-- Concrete schedule whose single upcoming occurrence is five units after now. -/
def dueInFiveSchedule : Schedule := ⟨fun _ _ => [], fun _ now => [now + 5]⟩

/-- Concrete schedule whose single upcoming occurrence is thirty units after now. -/
def dueInThirtySchedule : Schedule := ⟨fun _ _ => [], fun _ now => [now + 30]⟩

/-- Concrete schedule whose single upcoming occurrence is ninety units after now. -/
def dueInNinetySchedule : Schedule := ⟨fun _ _ => [], fun _ now => [now + 90]⟩

/-- Concrete scheduler holding a job due exactly now followed by a job due in
five units: the input on which the zero duration is lost to the sentinel. -/
def sentinelScheduler : JobScheduler :=
  { jobs := [sampleJob dueNowSchedule none 1 10, sampleJob dueInFiveSchedule none 1 11],
    timezone := 0 }

/-- Concrete scheduler holding one job due in thirty units and one due in
ninety units. -/
def predictScheduler : JobScheduler :=
  { jobs := [sampleJob dueInThirtySchedule none 1 40, sampleJob dueInNinetySchedule none 1 41],
    timezone := 0 }

/-! Helper lemmas. -/

theorem tick_fst_eq (j : Job) (now : Int) :
    (j.tick now).fst = { j with last_tick := some now } := by
  unfold Job.tick
  cases j.last_tick <;> rfl

theorem takeWhile_take_comm {α : Type} (p : α → Bool) (l : List α) (n : Nat) :
    (l.take n).takeWhile p = (l.takeWhile p).take n := by
  induction l generalizing n with
  | nil => simp
  | cons a l ih =>
    cases n with
    | zero => simp
    | succ n =>
      simp only [List.take_succ_cons, List.takeWhile_cons]
      by_cases h : p a
      · simp [h, ih]
      · simp [h]

theorem sorted_filter_le_eq_takeWhile (l : List Int) (now : Int)
    (h : l.Pairwise (· ≤ ·)) :
    l.filter (fun e => e ≤ now) = l.takeWhile (fun e => e ≤ now) := by
  induction l with
  | nil => rfl
  | cons a l ih =>
    cases h with
    | cons ha htl =>
      by_cases hle : a ≤ now
      · simp only [List.filter_cons, List.takeWhile_cons, decide_eq_true hle, if_true]
        rw [ih htl]
      · simp only [List.filter_cons, List.takeWhile_cons, decide_eq_false hle,
          Bool.false_eq_true, if_false]
        rw [List.filter_eq_nil_iff.mpr]
        intro x hx
        simp only [decide_eq_true_eq]
        intro hxle
        exact hle (le_trans (ha x hx) hxle)

/-- C3: an unprimed job's advance invokes the action zero times, for any
schedule and limit, and leaves the job primed with `last_tick = now`. -/
theorem tick_priming (j : Job) (now : Int) (h : j.last_tick = none) :
    j.tick now = ({ j with last_tick := some now }, []) := by
  unfold Job.tick
  rw [h]

theorem tick_priming_witness :
    (sampleJob secondsSchedule none 1 0).last_tick = none
    ∧ (sampleJob secondsSchedule none 1 0).tick 5
        = ({ sampleJob secondsSchedule none 1 0 with last_tick := some 5 }, []) :=
  ⟨rfl, tick_priming (sampleJob secondsSchedule none 1 0) 5 rfl⟩

theorem tttnj_of_no_jobs (s : JobScheduler) (now : Int) (h : s.jobs = []) :
    s.time_till_next_job now = some 500 := by
  unfold JobScheduler.time_till_next_job
  rw [h]
  rfl

/-- C9: with an empty job collection, `time_till_next_job` returns exactly the
500 (millisecond) default, whatever the time zone and the current time. -/
theorem tttnj_empty_default (s : JobScheduler) (now : Int) (h : s.jobs = []) :
    s.time_till_next_job now = some 500 :=
  tttnj_of_no_jobs s now h

theorem tttnj_empty_default_witness :
    JobScheduler.time_till_next_job { jobs := [], timezone := 33 } 12345 = some 500 :=
  tttnj_empty_default { jobs := [], timezone := 33 } 12345 rfl

/-- C6: `add` pins the scheduler's current time zone onto the stored copy of
the job, and a later `set_timezone` leaves the whole job collection — every
field of every stored job — unchanged. -/
theorem add_pins_timezone_frame (s : JobScheduler) (job : Job) (tz : Int) :
    ((s.add job).fst.set_timezone tz).jobs = (s.add job).fst.jobs
    ∧ (s.add job).fst.jobs = s.jobs ++ [{ job with timezone := s.timezone }] :=
  ⟨rfl, rfl⟩

/-- C7: each advance overwrites `last_tick` with the advance time, so over any
non-decreasing sequence of advance times the observed `last_tick` values are
all set and non-decreasing (whatever the job's starting state, so an
intervening explicit `last_tick` setter cannot break the next advance). -/
theorem last_tick_monotone (j : Job) (ts : List Int) (hts : ts.Chain' (· ≤ ·)) :
    j.tickTrace ts = ts.map some
    ∧ (j.tickTrace ts).Chain'
        (fun a b => ∃ x y, a = some x ∧ b = some y ∧ x ≤ y) := by
  have htrace : ∀ (j : Job) (ts : List Int), j.tickTrace ts = ts.map some := by
    intro j ts
    induction ts generalizing j with
    | nil => rfl
    | cons t ts ih =>
      unfold Job.tickTrace
      rw [tick_fst_eq, ih]
      rfl
  refine ⟨htrace j ts, ?_⟩
  rw [htrace j ts, List.chain'_map]
  exact List.Chain'.imp (fun x y hxy => ⟨x, y, rfl, rfl, hxy⟩) hts

theorem last_tick_monotone_witness :
    Job.tickTrace (sampleJob secondsSchedule (some 0) 1 0) [1, 2, 2, 7]
        = [some 1, some 2, some 2, some 7]
    ∧ (Job.tickTrace (sampleJob secondsSchedule (some 0) 1 0) [1, 2, 2, 7]).Chain'
        (fun a b => ∃ x y, a = some x ∧ b = some y ∧ x ≤ y) :=
  last_tick_monotone (sampleJob secondsSchedule (some 0) 1 0) [1, 2, 2, 7]
    (by simp [List.chain'_cons])

/-- C1: a primed job with nonzero limit `m` fires exactly `min m N` actions in
one advance, where `N` counts the occurrences strictly after the previous
`last_tick` and not after `now`; the fired ones are the earliest such
occurrences (an initial segment of the filtered sequence), and `last_tick` is
advanced to `now` regardless, dropping the rest. -/
theorem tick_bounded_catch_up (j : Job) (now prev : Int) (m : Nat)
    (hprev : j.last_tick = some prev) (hm : j.limit_missed_runs = m) (hm0 : 0 < m)
    (hsorted : (j.schedule.after j.timezone prev).Pairwise (· ≤ ·))
    (hafter : ∀ e ∈ j.schedule.after j.timezone prev, prev < e) :
    (j.tick now).fst = { j with last_tick := some now }
    ∧ (j.tick now).snd
        = ((j.schedule.after j.timezone prev).filter (fun e => prev < e ∧ e ≤ now)).take m
    ∧ (j.tick now).snd.length
        = min m ((j.schedule.after j.timezone prev).filter (fun e => prev < e ∧ e ≤ now)).length := by
  have hfilter : (j.schedule.after j.timezone prev).filter (fun e => prev < e ∧ e ≤ now)
      = (j.schedule.after j.timezone prev).filter (fun e => e ≤ now) :=
    List.filter_congr (fun e he => by simp [hafter e he])
  have hsnd : (j.tick now).snd
      = ((j.schedule.after j.timezone prev).take m).takeWhile (fun e => e ≤ now) := by
    unfold Job.tick
    rw [hprev]
    simp only [hm, hm0, if_pos]
  rw [hfilter, hsnd, takeWhile_take_comm, ← sorted_filter_le_eq_takeWhile _ now hsorted,
    tick_fst_eq]
  refine ⟨rfl, rfl, ?_⟩
  exact List.length_take m _

theorem tick_bounded_catch_up_witness :
    ((sampleJob secondsSchedule (some 0) 2 1).tick 10).snd
        = ((secondsSchedule.after 0 0).filter (fun e => (0 : Int) < e ∧ e ≤ 10)).take 2
    ∧ ((sampleJob secondsSchedule (some 0) 2 1).tick 10).snd.length
        = min 2 ((secondsSchedule.after 0 0).filter (fun e => (0 : Int) < e ∧ e ≤ 10)).length := by
  have h := tick_bounded_catch_up (sampleJob secondsSchedule (some 0) 2 1) 10 0 2
    rfl rfl (by decide) (by decide) (by decide)
  exact ⟨h.2.1, h.2.2⟩

/-- C4: a primed job with limit 0 (unlimited catch-up) fires once per
occurrence strictly after the previous `last_tick` and not after `now` — all
of them — in ascending occurrence-time order, and advances `last_tick` to
`now`. -/
theorem tick_unlimited_catch_up (j : Job) (now prev : Int)
    (hprev : j.last_tick = some prev) (hm : j.limit_missed_runs = 0)
    (hsorted : (j.schedule.after j.timezone prev).Pairwise (· ≤ ·))
    (hafter : ∀ e ∈ j.schedule.after j.timezone prev, prev < e) :
    (j.tick now).fst = { j with last_tick := some now }
    ∧ (j.tick now).snd
        = (j.schedule.after j.timezone prev).filter (fun e => prev < e ∧ e ≤ now)
    ∧ (j.tick now).snd.Pairwise (· ≤ ·) := by
  have hfilter : (j.schedule.after j.timezone prev).filter (fun e => prev < e ∧ e ≤ now)
      = (j.schedule.after j.timezone prev).filter (fun e => e ≤ now) :=
    List.filter_congr (fun e he => by simp [hafter e he])
  have hsnd : (j.tick now).snd
      = (j.schedule.after j.timezone prev).takeWhile (fun e => e ≤ now) := by
    unfold Job.tick
    rw [hprev]
    simp only [hm, gt_iff_lt, lt_irrefl, if_false]
  refine ⟨tick_fst_eq j now, ?_, ?_⟩
  · rw [hfilter, hsnd, sorted_filter_le_eq_takeWhile _ now hsorted]
  · rw [hsnd]
    exact List.Pairwise.sublist (List.takeWhile_sublist _) hsorted

theorem tick_unlimited_catch_up_witness :
    ((sampleJob secondsSchedule (some 0) 0 2).tick 10).snd
        = (secondsSchedule.after 0 0).filter (fun e => (0 : Int) < e ∧ e ≤ 10)
    ∧ ((sampleJob secondsSchedule (some 0) 0 2).tick 10).snd.Pairwise (· ≤ ·) := by
  have h := tick_unlimited_catch_up (sampleJob secondsSchedule (some 0) 0 2) 10 0
    rfl rfl (by decide) (by decide)
  exact ⟨h.2.1, h.2.2⟩

theorem eraseIdx_findIdx?_eq_eraseP {α : Type} (p : α → Bool) (l : List α) :
    (match l.findIdx? p with
     | some i => l.eraseIdx i
     | none => l) = l.eraseP p := by
  induction l with
  | nil => rfl
  | cons a l ih =>
    rw [List.findIdx?_cons]
    by_cases h : p a
    · simp [h, List.eraseP_cons]
    · rw [if_neg (by simp [h]), List.findIdx?_succ]
      cases hfi : l.findIdx? p with
      | none =>
        rw [hfi] at ih
        simp only [hfi, Option.map_none', List.eraseP_cons, h, cond_false]
        rw [← ih]
      | some i =>
        rw [hfi] at ih
        simp only [hfi, Option.map_some', List.eraseIdx_cons_succ, List.eraseP_cons, h,
          cond_false]
        rw [← ih]

/-- C5: `remove` returns `true` exactly when a job with the given identifier
is stored; in that case the first (only) matching job is removed and all the
others are kept (`eraseP`); when no job matches, the scheduler is returned
completely unchanged together with `false`. -/
theorem remove_found_iff (s : JobScheduler) (job_id : Nat) :
    ((s.remove job_id).snd = true ↔ ∃ j ∈ s.jobs, j.job_id = job_id)
    ∧ ((s.remove job_id).snd = false → (s.remove job_id).fst = s)
    ∧ (s.remove job_id).fst.jobs = s.jobs.eraseP (fun job => job.job_id = job_id)
    ∧ (s.remove job_id).fst.timezone = s.timezone := by
  have herase := eraseIdx_findIdx?_eq_eraseP (fun job => decide (job.job_id = job_id)) s.jobs
  have hjobs : (s.remove job_id).fst.jobs
      = s.jobs.eraseP (fun job => job.job_id = job_id) := by
    rw [← herase]
    unfold JobScheduler.remove
    cases hfi : s.jobs.findIdx? (fun job => job.job_id = job_id) <;> simp [hfi]
  have hsnd : (s.remove job_id).snd = s.jobs.any (fun job => job.job_id = job_id) := by
    have hs := @List.findIdx?_isSome _ s.jobs (fun job => decide (job.job_id = job_id))
    unfold JobScheduler.remove
    cases hfi : s.jobs.findIdx? (fun job => job.job_id = job_id) with
    | none =>
      rw [hfi] at hs
      simp only [hfi]
      simpa using hs.symm
    | some i =>
      rw [hfi] at hs
      simp only [hfi]
      simpa using hs.symm
  have htz : (s.remove job_id).fst.timezone = s.timezone := by
    unfold JobScheduler.remove
    cases hfi : s.jobs.findIdx? (fun job => job.job_id = job_id) <;> simp [hfi]
  refine ⟨?_, ?_, hjobs, htz⟩
  · rw [hsnd]
    simp [List.any_eq_true]
  · intro hfalse
    rw [hsnd] at hfalse
    have hnone : s.jobs.findIdx? (fun job => job.job_id = job_id) = none := by
      have hs := @List.findIdx?_isSome _ s.jobs (fun job => decide (job.job_id = job_id))
      rw [hfalse] at hs
      exact Option.not_isSome_iff_eq_none.mp (by simp [hs])
    unfold JobScheduler.remove
    rw [hnone]

theorem remove_found_iff_witness :
    (JobScheduler.remove
        { jobs := [sampleJob emptySchedule none 1 1, sampleJob emptySchedule none 1 2],
          timezone := 0 } 3).snd = false
    ∧ (JobScheduler.remove
        { jobs := [sampleJob emptySchedule none 1 1, sampleJob emptySchedule none 1 2],
          timezone := 0 } 3).fst
        = { jobs := [sampleJob emptySchedule none 1 1, sampleJob emptySchedule none 1 2],
            timezone := 0 }
    ∧ (JobScheduler.remove
        { jobs := [sampleJob emptySchedule none 1 1, sampleJob emptySchedule none 1 2],
          timezone := 0 } 2).snd = true
    ∧ (JobScheduler.remove
        { jobs := [sampleJob emptySchedule none 1 1, sampleJob emptySchedule none 1 2],
          timezone := 0 } 2).fst.jobs = [sampleJob emptySchedule none 1 1] :=
  ⟨rfl,
   (remove_found_iff
      { jobs := [sampleJob emptySchedule none 1 1, sampleJob emptySchedule none 1 2],
        timezone := 0 } 3).2.1 rfl,
   (remove_found_iff
      { jobs := [sampleJob emptySchedule none 1 1, sampleJob emptySchedule none 1 2],
        timezone := 0 } 2).1.mpr ⟨sampleJob emptySchedule none 1 2, by simp, rfl⟩,
   (remove_found_iff
      { jobs := [sampleJob emptySchedule none 1 1, sampleJob emptySchedule none 1 2],
        timezone := 0 } 2).2.2.1⟩

theorem tttnj_fold_eq (jobs : List Job) (tz now : Int) (acc : Int) :
    jobs.foldl
      (fun duration job =>
        ((job.schedule.upcoming tz now).take 1).foldl
          (fun duration event => durationStep duration (event - now)) duration)
      acc
    = (jobs.filterMap
        (fun job => ((job.schedule.upcoming tz now).head?).map
          (fun event => event - now))).foldl durationStep acc := by
  induction jobs generalizing acc with
  | nil => rfl
  | cons job jobs ih =>
    rw [List.foldl_cons, List.filterMap_cons]
    cases hu : job.schedule.upcoming tz now with
    | nil => simp only [hu, List.take_nil, List.foldl_nil, List.head?_nil, Option.map_none']
             exact ih acc
    | cons e rest =>
      simp only [hu, List.take_succ_cons, List.take_zero, List.foldl_cons, List.foldl_nil,
        List.head?_cons, Option.map_some']
      exact ih _

theorem tttnj_nonempty (s : JobScheduler) (now : Int) (h : s.jobs ≠ []) :
    s.time_till_next_job now
      = Duration.to_std ((s.nextDurations now).foldl durationStep 0) := by
  unfold JobScheduler.time_till_next_job JobScheduler.nextDurations
  rw [if_neg (by simp [h])]
  exact congrArg Duration.to_std (tttnj_fold_eq s.jobs s.timezone now 0)

/-- C10: in `time_till_next_job` on a non-empty collection, a job whose
upcoming sequence is empty contributes nothing to the fold, and if every
stored job's upcoming sequence is empty the result is the zero duration, not
the 500 no-jobs default. -/
theorem tttnj_exhausted (s : JobScheduler) (now : Int) (j0 : Job) (hne : s.jobs ≠ []) :
    (j0.schedule.upcoming s.timezone now = [] →
      JobScheduler.time_till_next_job { s with jobs := s.jobs ++ [j0] } now
        = s.time_till_next_job now)
    ∧ ((∀ job ∈ s.jobs, job.schedule.upcoming s.timezone now = []) →
      s.time_till_next_job now = some 0) := by
  constructor
  · intro h0
    rw [tttnj_nonempty s now hne,
      tttnj_nonempty { s with jobs := s.jobs ++ [j0] } now (by simp [hne])]
    unfold JobScheduler.nextDurations
    rw [List.filterMap_append]
    simp [h0]
  · intro hall
    rw [tttnj_nonempty s now hne]
    have hds : s.nextDurations now = [] := by
      unfold JobScheduler.nextDurations
      rw [List.filterMap_eq_nil_iff.mpr]
      intro job hjob
      rw [hall job hjob]
      rfl
    rw [hds]
    rfl

theorem tttnj_exhausted_witness :
    (JobScheduler.time_till_next_job
        { jobs := [sampleJob emptySchedule none 1 30, sampleJob emptySchedule none 1 31],
          timezone := 0 } 7
      = JobScheduler.time_till_next_job
        { jobs := [sampleJob emptySchedule none 1 30], timezone := 0 } 7)
    ∧ JobScheduler.time_till_next_job
        { jobs := [sampleJob emptySchedule none 1 30], timezone := 0 } 7 = some 0 := by
  have h := tttnj_exhausted { jobs := [sampleJob emptySchedule none 1 30], timezone := 0 } 7
    (sampleJob emptySchedule none 1 31) (by simp)
  exact ⟨h.1 rfl, h.2 (by intro job hjob; simp [sampleJob, emptySchedule] at hjob; simp [hjob, emptySchedule])⟩

theorem foldl_durationStep_nonneg (ds : List Int) (acc : Int) (hacc : 0 ≤ acc)
    (h : ∀ d ∈ ds, 0 ≤ d) : 0 ≤ ds.foldl durationStep acc := by
  induction ds generalizing acc with
  | nil => exact hacc
  | cons d tl ih =>
    rw [List.foldl_cons]
    refine ih (durationStep acc d) ?_ (fun x hx => h x (List.mem_cons_of_mem d hx))
    unfold durationStep
    split
    · exact h d (List.mem_cons_self d tl)
    · exact hacc

/-- C8: `time_till_next_job` never fails: when every job's upcoming sequence
holds only timestamps not before `now`, the final fallible conversion to a
standard duration succeeds and the result is a duration of at least zero. -/
theorem tttnj_never_fails (s : JobScheduler) (now : Int)
    (h : ∀ job ∈ s.jobs, ∀ e ∈ job.schedule.upcoming s.timezone now, now ≤ e) :
    ∃ d, s.time_till_next_job now = some d ∧ 0 ≤ d := by
  by_cases hne : s.jobs = []
  · exact ⟨500, tttnj_of_no_jobs s now hne, by norm_num⟩
  · have hnn : ∀ d ∈ s.nextDurations now, 0 ≤ d := by
      intro d hd
      unfold JobScheduler.nextDurations at hd
      obtain ⟨job, hjob, hmap⟩ := List.mem_filterMap.mp hd
      cases hh : (job.schedule.upcoming s.timezone now).head? with
      | none => rw [hh] at hmap; simp at hmap
      | some e =>
        rw [hh] at hmap
        simp only [Option.map_some', Option.some.injEq] at hmap
        have he : e ∈ job.schedule.upcoming s.timezone now :=
          List.mem_of_mem_head? (by simp [hh])
        have := h job hjob e he
        omega
    have hfold := foldl_durationStep_nonneg (s.nextDurations now) 0 le_rfl hnn
    refine ⟨(s.nextDurations now).foldl durationStep 0, ?_, hfold⟩
    rw [tttnj_nonempty s now hne]
    unfold Duration.to_std
    rw [if_neg (not_lt.mpr hfold)]

theorem tttnj_never_fails_witness :
    ∃ d, JobScheduler.time_till_next_job
        { jobs := [sampleJob dueInFiveSchedule none 1 20], timezone := 0 } 0 = some d
      ∧ 0 ≤ d :=
  tttnj_never_fails { jobs := [sampleJob dueInFiveSchedule none 1 20], timezone := 0 } 0
    (by intro job hjob e he
        simp [sampleJob, dueInFiveSchedule] at hjob
        subst hjob
        simp [sampleJob, dueInFiveSchedule] at he
        omega)

theorem durationStep_pos_eq_min (acc d : Int) (hacc : 0 < acc) :
    durationStep acc d = min acc d := by
  unfold durationStep
  rw [Int.min_def]
  by_cases h : d < acc
  · rw [if_pos (Or.inr h), if_neg (not_le.mpr h)]
  · rw [if_neg (by push_neg; exact ⟨by omega, not_lt.mp h⟩), if_pos (not_lt.mp h)]

theorem foldl_min_pos (d : Int) (tl : List Int) (hd : 0 < d)
    (h : ∀ x ∈ tl, 0 < x) : 0 < tl.foldl min d := by
  induction tl generalizing d with
  | nil => exact hd
  | cons x tl ih =>
    rw [List.foldl_cons]
    exact ih (min d x) (lt_min hd (h x (List.mem_cons_self x tl)))
      (fun y hy => h y (List.mem_cons_of_mem x hy))

theorem foldl_durationStep_eq_min (tl : List Int) (acc : Int) (hacc : 0 < acc)
    (h : ∀ x ∈ tl, 0 < x) : tl.foldl durationStep acc = tl.foldl min acc := by
  induction tl generalizing acc with
  | nil => rfl
  | cons x tl ih =>
    rw [List.foldl_cons, List.foldl_cons, durationStep_pos_eq_min acc x hacc]
    exact ih (min acc x) (lt_min hacc (h x (List.mem_cons_self x tl)))
      (fun y hy => h y (List.mem_cons_of_mem x hy))

theorem foldl_durationStep_all_zero (ds : List Int) (h : ∀ x ∈ ds, x = 0) :
    ds.foldl durationStep 0 = 0 := by
  induction ds with
  | nil => rfl
  | cons x tl ih =>
    rw [List.foldl_cons]
    have hx := h x (List.mem_cons_self x tl)
    have hstep : durationStep 0 x = 0 := by
      unfold durationStep
      rw [if_pos (Or.inl rfl), hx]
    rw [hstep]
    exact ih (fun y hy => h y (List.mem_cons_of_mem x hy))

/-- C2 (counterexample): with a job due exactly now (duration zero) stored
before a job due in five units, the claim's minimum is zero, yet the code
returns five — the zero accumulator is treated as *unset* by the
`duration.is_zero()` test and is overwritten by the later positive duration. -/
theorem tttnj_zero_sentinel_counterexample :
    sentinelScheduler.nextDurations 0 = [0, 5]
    ∧ sentinelScheduler.time_till_next_job 0 = some 5
    ∧ (5 : Int) ≠ 0 := by
  refine ⟨by decide, by decide, by decide⟩

/-- C2 (amended): on a non-empty collection in which every job has an upcoming
occurrence, `time_till_next_job` returns the minimum of the per-job durations
provided they are all positive; and when all the computed durations are zero
the result is zero. (The original claim's mixed zero/positive case fails:
zero is the fold's *unset* sentinel, see the counterexample.) -/
theorem tttnj_minimum_of_positive (s : JobScheduler) (now : Int) (hne : s.jobs ≠ [])
    (hall : ∀ job ∈ s.jobs, job.schedule.upcoming s.timezone now ≠ []) :
    ((∀ d ∈ s.nextDurations now, 0 < d) →
        s.time_till_next_job now = (s.nextDurations now).min?)
    ∧ ((∀ d ∈ s.nextDurations now, d = 0) →
        s.time_till_next_job now = some 0) := by
  have hds : s.nextDurations now ≠ [] := by
    unfold JobScheduler.nextDurations
    cases hj : s.jobs with
    | nil => exact absurd hj hne
    | cons job rest =>
      have hu := hall job (by rw [hj]; exact List.mem_cons_self job rest)
      rw [List.filterMap_cons]
      cases hup : job.schedule.upcoming s.timezone now with
      | nil => exact absurd hup hu
      | cons e r => simp [hup]
  constructor
  · intro hpos
    rw [tttnj_nonempty s now hne]
    cases hd : s.nextDurations now with
    | nil => exact absurd hd hds
    | cons d tl =>
      have hdpos : 0 < d := hpos d (by rw [hd]; exact List.mem_cons_self d tl)
      have htl : ∀ x ∈ tl, 0 < x :=
        fun x hx => hpos x (by rw [hd]; exact List.mem_cons_of_mem d hx)
      have h0 : durationStep 0 d = d := by
        unfold durationStep
        rw [if_pos (Or.inl rfl)]
      rw [List.foldl_cons, h0, foldl_durationStep_eq_min tl d hdpos htl]
      have hmin : (d :: tl).min? = some (tl.foldl min d) := rfl
      rw [hmin]
      unfold Duration.to_std
      rw [if_neg (not_lt.mpr (le_of_lt (foldl_min_pos d tl hdpos htl)))]
  · intro hzero
    rw [tttnj_nonempty s now hne, foldl_durationStep_all_zero _ hzero]
    rfl

theorem tttnj_minimum_of_positive_witness :
    predictScheduler.time_till_next_job 0 = (predictScheduler.nextDurations 0).min?
    ∧ (predictScheduler.nextDurations 0).min? = some 30 :=
  ⟨(tttnj_minimum_of_positive predictScheduler 0 (by simp [predictScheduler])
      (by
        intro job hjob
        simp only [predictScheduler, List.mem_cons, List.not_mem_nil, or_false] at hjob
        rcases hjob with h | h <;> subst h <;>
          simp [sampleJob, dueInThirtySchedule, dueInNinetySchedule, predictScheduler])).1
      (by decide),
   by decide⟩
